import Mathlib

/-!
# Verification of the epicfree snapshot merge engine and rating model

A shallow embedding, in Lean 4, of the core logic of the `epicfree`
repository:

* the snapshot merge-and-partition engine
  (`src/application/use_cases/save_games.py`, `SaveGamesUseCase`),
* the rating value object (`src/domain/value_objects/rating.py`, `Rating`),
* the composite rating adapter
  (`src/infrastructure/adapters/composite_rating_adapter.py`),
* the durable JSON snapshot store
  (`src/infrastructure/repositories/json_file_repo.py`).

Python `dict`s are modelled as association lists with insertion-order
semantics (`odInsert` appends a fresh key at the end, overwrites an
existing key in place), exactly the observable behaviour of CPython's
ordered dicts.  Python strings compare lexicographically by code point;
`strLe` models that order on Lean strings.  `datetime` values are
modelled as integer timestamps.  Python's `sorted` is a stable sort;
`insSort` below is a stable insertion sort and therefore computes the
same list as `sorted` for every key function and comparator.
-/

namespace EpicFree

/-! ## Strings: Python's lexicographic order by code point -/

/-- Lexicographic comparison of code-point lists, Python's `<=` on strings. -/
def charListLe : List Char → List Char → Bool
  | [], _ => true
  | _ :: _, [] => false
  | a :: as, b :: bs =>
    if a.toNat < b.toNat then true
    else if b.toNat < a.toNat then false
    else charListLe as bs

/-- Python's `s <= t` on strings: lexicographic by code point. -/
def strLe (a b : String) : Bool := charListLe a.data b.data

theorem charListLe_total (a b : List Char) : charListLe a b = true ∨ charListLe b a = true := by
  induction a generalizing b with
  | nil => left; rfl
  | cons x xs ih =>
    cases b with
    | nil => right; rfl
    | cons y ys =>
      by_cases h1 : x.toNat < y.toNat
      · left; simp [charListLe, h1]
      · by_cases h2 : y.toNat < x.toNat
        · right; simp [charListLe, h2]
        · rcases ih ys with h | h
          · left; simp [charListLe, h1, h2, h]
          · right; simp [charListLe, h1, h2, h]

theorem charListLe_trans {a b c : List Char} (hab : charListLe a b = true)
    (hbc : charListLe b c = true) : charListLe a c = true := by
  induction a generalizing b c with
  | nil => rfl
  | cons x xs ih =>
    cases b with
    | nil => simp [charListLe] at hab
    | cons y ys =>
      cases c with
      | nil => simp [charListLe] at hbc
      | cons z zs =>
        simp only [charListLe] at hab hbc ⊢
        by_cases hxy : x.toNat < y.toNat
        · by_cases hyz : y.toNat < z.toNat
          · simp [Nat.lt_trans hxy hyz]
          · by_cases hzy : z.toNat < y.toNat
            · simp [hyz, hzy] at hbc
            · have : y.toNat = z.toNat := Nat.le_antisymm (Nat.le_of_not_lt hzy) (Nat.le_of_not_lt hyz)
              simp [this ▸ hxy]
        · by_cases hyx : y.toNat < x.toNat
          · simp [hxy, hyx] at hab
          · have hxeqy : x.toNat = y.toNat := Nat.le_antisymm (Nat.le_of_not_lt hyx) (Nat.le_of_not_lt hxy)
            simp only [hxy, hyx, if_false, if_neg (lt_irrefl _)] at hab
            by_cases hyz : y.toNat < z.toNat
            · simp [hxeqy ▸ hyz]
            · by_cases hzy : z.toNat < y.toNat
              · simp [hyz, hzy] at hbc
              · simp only [hyz, hzy, if_false] at hbc
                rw [hxeqy]
                simp [hyz, hzy, ih hab hbc]

theorem strLe_total (a b : String) : strLe a b = true ∨ strLe b a = true :=
  charListLe_total a.data b.data

theorem strLe_trans {a b c : String} (hab : strLe a b = true) (hbc : strLe b c = true) :
    strLe a c = true := charListLe_trans hab hbc

/-- The empty string is a least element: a record keyed by `""` can only be
placed at the end of a descending sort. -/
theorem strLe_empty_left (s : String) : strLe "" s = true := rfl

theorem strLe_empty_right {s : String} (h : strLe s "" = true) : s = "" := by
  obtain ⟨data⟩ := s
  cases data with
  | nil => rfl
  | cons c t => simp [strLe, charListLe] at h

/-! ## A stable insertion sort, modelling Python's stable `sorted` -/

/-- Insert `a` before the first element `b` with `le a b`; after all
elements it ties with or loses to.  Inserting every element of a list in
order from the left yields a stable sort. -/
def ordInsert {α : Type} (le : α → α → Bool) (a : α) : List α → List α
  | [] => [a]
  | b :: l => if le a b then a :: b :: l else b :: ordInsert le a l

/-- Stable insertion sort.  For a comparator `le x y := key y ≤ key x`
this computes exactly Python's `sorted(l, key=key, reverse=True)`:
both are stable sorts for the same total preorder. -/
def insSort {α : Type} (le : α → α → Bool) : List α → List α
  | [] => []
  | a :: l => ordInsert le a (insSort le l)

theorem mem_ordInsert {α : Type} (le : α → α → Bool) (a x : α) (l : List α) :
    x ∈ ordInsert le a l ↔ x = a ∨ x ∈ l := by
  induction l with
  | nil => simp [ordInsert]
  | cons b t ih =>
    by_cases h : le a b
    · simp [ordInsert, h]
    · simp [ordInsert, h, ih]
      tauto

theorem mem_insSort {α : Type} (le : α → α → Bool) (x : α) (l : List α) :
    x ∈ insSort le l ↔ x ∈ l := by
  induction l with
  | nil => simp [insSort]
  | cons a t ih => simp [insSort, mem_ordInsert, ih]

theorem pairwise_ordInsert {α : Type} (le : α → α → Bool)
    (htotal : ∀ a b, le a b = true ∨ le b a = true)
    (htrans : ∀ {a b c}, le a b = true → le b c = true → le a c = true)
    (a : α) (l : List α) (h : l.Pairwise (fun x y => le x y = true)) :
    (ordInsert le a l).Pairwise (fun x y => le x y = true) := by
  induction l with
  | nil => simp [ordInsert]
  | cons b t ih =>
    rcases List.pairwise_cons.mp h with ⟨hb, ht⟩
    by_cases hab : le a b = true
    · simp only [ordInsert, hab, if_true]
      refine List.pairwise_cons.mpr ⟨?_, h⟩
      intro y hy
      rcases List.mem_cons.mp hy with rfl | hy
      · exact hab
      · exact htrans hab (hb y hy)
    · simp only [ordInsert, hab, if_false]
      refine List.pairwise_cons.mpr ⟨?_, ih ht⟩
      intro y hy
      rcases (mem_ordInsert le a y t).mp hy with rfl | hy
      · rcases htotal y b with h' | h'
        · exact absurd h' hab
        · exact h'
      · exact hb y hy

theorem pairwise_insSort {α : Type} (le : α → α → Bool)
    (htotal : ∀ a b, le a b = true ∨ le b a = true)
    (htrans : ∀ {a b c}, le a b = true → le b c = true → le a c = true)
    (l : List α) : (insSort le l).Pairwise (fun x y => le x y = true) := by
  induction l with
  | nil => simp [insSort]
  | cons a t ih => exact pairwise_ordInsert le htotal htrans a (insSort le t) ih

/-! ## Ordered dictionaries (CPython `dict` semantics) -/

/-- The key sequence of an ordered dict. -/
def odKeys {α : Type} (m : List (String × α)) : List String := m.map Prod.fst

@[simp] theorem odKeys_nil {α : Type} : odKeys ([] : List (String × α)) = [] := rfl

@[simp] theorem odKeys_cons {α : Type} (p : String × α) (t : List (String × α)) :
    odKeys (p :: t) = p.1 :: odKeys t := rfl

@[simp] theorem odKeys_append {α : Type} (m m' : List (String × α)) :
    odKeys (m ++ m') = odKeys m ++ odKeys m' := List.map_append _ m m'

/-- `d[k] = v` on a CPython dict: an existing key keeps its position and takes
the new value, a fresh key is appended at the end. -/
def odInsert {α : Type} (m : List (String × α)) (k : String) (v : α) : List (String × α) :=
  if k ∈ odKeys m then m.map (fun p => if p.1 = k then (k, v) else p)
  else m ++ [(k, v)]

/-- `d.get(k)` / `d[k]`: the value stored at key `k` (the first hit; keys are
unique in every dict the code builds). -/
def odLookup {α : Type} : List (String × α) → String → Option α
  | [], _ => none
  | p :: t, k => if p.1 = k then some p.2 else odLookup t k

@[simp] theorem odLookup_nil {α : Type} (k : String) :
    odLookup ([] : List (String × α)) k = none := rfl

theorem odLookup_cons {α : Type} (a : String) (w : α) (t : List (String × α)) (k : String) :
    odLookup ((a, w) :: t) k = if a = k then some w else odLookup t k := rfl

theorem odLookup_eq_none_iff {α : Type} (m : List (String × α)) (k : String) :
    odLookup m k = none ↔ k ∉ odKeys m := by
  induction m with
  | nil => simp
  | cons p t ih =>
    obtain ⟨a, w⟩ := p
    by_cases h : a = k
    · subst h; simp [odLookup_cons]
    · simp [odLookup_cons, h, ih, Ne.symm h]

theorem odLookup_isSome_of_mem {α : Type} {m : List (String × α)} {p : String × α}
    (h : p ∈ m) : odLookup m p.1 ≠ none := by
  rw [Ne, odLookup_eq_none_iff]
  intro hc
  exact hc (List.mem_map_of_mem Prod.fst h)

theorem odLookup_mapReplace {α : Type} (m : List (String × α)) (k k' : String) (v : α) :
    odLookup (m.map (fun p => if p.1 = k then (k, v) else p)) k'
      = if k' = k then (if k ∈ odKeys m then some v else none) else odLookup m k' := by
  induction m with
  | nil => by_cases h : k' = k <;> simp [h]
  | cons p t ih =>
    obtain ⟨a, w⟩ := p
    by_cases hak : a = k
    · subst hak
      by_cases hk' : a = k'
      · subst hk'; simp [odLookup_cons]
      · simp [odLookup_cons, hk', Ne.symm hk', ih]
    · by_cases hax : a = k'
      · subst hax; simp [odLookup_cons, hak]
      · simp [odLookup_cons, hak, hax, ih, Ne.symm hak]

theorem odLookup_append_not_mem {α : Type} (m : List (String × α)) (k k' : String) (v : α)
    (hmem : k ∉ odKeys m) :
    odLookup (m ++ [(k, v)]) k' = if k' = k then some v else odLookup m k' := by
  induction m with
  | nil =>
    by_cases h : k' = k
    · subst h; simp [odLookup_cons]
    · simp [odLookup_cons, h, Ne.symm h]
  | cons p t ih =>
    obtain ⟨a, w⟩ := p
    have hmem' : k ∉ odKeys t := fun hc => hmem (by simp [hc])
    have hak : a ≠ k := fun hc => hmem (by simp [hc])
    by_cases h : a = k'
    · subst h; simp [List.cons_append, odLookup_cons, hak]
    · simp [List.cons_append, odLookup_cons, h, ih hmem']

theorem odLookup_odInsert {α : Type} (m : List (String × α)) (k k' : String) (v : α) :
    odLookup (odInsert m k v) k' = if k' = k then some v else odLookup m k' := by
  by_cases hmem : k ∈ odKeys m
  · simp [odInsert, hmem, odLookup_mapReplace]
  · simp only [odInsert, hmem, if_false]
    exact odLookup_append_not_mem m k k' v hmem

theorem odKeys_odInsert {α : Type} (m : List (String × α)) (k : String) (v : α) :
    odKeys (odInsert m k v) = if k ∈ odKeys m then odKeys m else odKeys m ++ [k] := by
  by_cases hmem : k ∈ odKeys m
  · rw [odInsert, if_pos hmem, if_pos hmem, odKeys, odKeys, List.map_map]
    exact List.map_congr_left (fun p _ => by by_cases h : p.1 = k <;> simp [Function.comp, h])
  · simp [odInsert, hmem]

theorem nodup_odKeys_odInsert {α : Type} {m : List (String × α)} (k : String) (v : α)
    (h : (odKeys m).Nodup) : (odKeys (odInsert m k v)).Nodup := by
  rw [odKeys_odInsert]
  by_cases hmem : k ∈ odKeys m
  · simpa [hmem] using h
  · simp [hmem, List.nodup_append, h]

theorem mem_iff_odLookup {α : Type} {m : List (String × α)} (h : (odKeys m).Nodup)
    (k : String) (v : α) : (k, v) ∈ m ↔ odLookup m k = some v := by
  induction m with
  | nil => simp
  | cons p t ih =>
    obtain ⟨a, w⟩ := p
    rw [odKeys_cons, List.nodup_cons] at h
    by_cases ha : a = k
    · subst ha
      rw [odLookup_cons, if_pos rfl]
      constructor
      · intro hm
        rcases List.mem_cons.mp hm with hp | hmem
        · injection hp with h1 h2
          subst h2; rfl
        · exact absurd (List.mem_map_of_mem Prod.fst hmem) h.1
      · intro hl
        injection hl with hwv
        exact List.mem_cons.mpr (Or.inl (by rw [← hwv]))
    · simp [odLookup_cons, ha, ih h.2, Prod.ext_iff, Ne.symm ha]

/-! ## Keyed left folds of insertions -/

/-- Insert the elements of `l` into the dict `m` in order, `x` stored at key
`keyf x` with value `valf x`: the shape of every dict-building loop in
`save_games.py`. -/
def keyedFold {α β : Type} (keyf : β → String) (valf : β → α)
    (m : List (String × α)) (l : List β) : List (String × α) :=
  l.foldl (fun acc x => odInsert acc (keyf x) (valf x)) m

theorem keyedFold_nil {α β : Type} (keyf : β → String) (valf : β → α) (m : List (String × α)) :
    keyedFold keyf valf m [] = m := rfl

theorem keyedFold_cons {α β : Type} (keyf : β → String) (valf : β → α)
    (m : List (String × α)) (x : β) (l : List β) :
    keyedFold keyf valf m (x :: l) = keyedFold keyf valf (odInsert m (keyf x) (valf x)) l := rfl

theorem keyedFold_concat {α β : Type} (keyf : β → String) (valf : β → α)
    (m : List (String × α)) (x : β) (l : List β) :
    keyedFold keyf valf m (l ++ [x])
      = odInsert (keyedFold keyf valf m l) (keyf x) (valf x) := by
  unfold keyedFold
  rw [List.foldl_append]
  rfl

theorem odLookup_keyedFold {α β : Type} (keyf : β → String) (valf : β → α)
    (m : List (String × α)) (l : List β) (k : String) :
    odLookup (keyedFold keyf valf m l) k
      = ((l.filter (fun x => keyf x = k)).getLast?.map valf).orElse
          (fun _ => odLookup m k) := by
  induction l using List.reverseRecOn with
  | nil => simp [keyedFold_nil]
  | append_singleton l x ih =>
    rw [keyedFold_concat, odLookup_odInsert, List.filter_append]
    by_cases h : keyf x = k
    · have hx : List.filter (fun y => keyf y = k) [x] = [x] := by simp [h]
      rw [hx, List.getLast?_concat, if_pos h.symm]
      simp
    · have hx : List.filter (fun y => keyf y = k) [x] = [] := by simp [h]
      rw [hx, List.append_nil, if_neg (fun hc => h hc.symm)]
      exact ih

theorem nodup_odKeys_keyedFold {α β : Type} (keyf : β → String) (valf : β → α)
    {m : List (String × α)} (l : List β) (h : (odKeys m).Nodup) :
    (odKeys (keyedFold keyf valf m l)).Nodup := by
  induction l generalizing m with
  | nil => exact h
  | cons x t ih => exact ih (nodup_odKeys_odInsert _ _ h)

/-- The values of a dict all carry their own key (`keyOf value = key`):
true of every dict the merge engine builds, since records are stored
under their `"id"` field. -/
def keyConsistent {α : Type} (keyOf : α → String) (m : List (String × α)) : Prop :=
  ∀ p ∈ m, keyOf p.2 = p.1

theorem keyConsistent_odInsert {α : Type} {keyOf : α → String} {m : List (String × α)}
    {k : String} {v : α} (hc : keyConsistent keyOf m) (hkv : keyOf v = k) :
    keyConsistent keyOf (odInsert m k v) := by
  intro p hp
  unfold odInsert at hp
  split at hp
  · obtain ⟨q, hq, rfl⟩ := List.mem_map.mp hp
    by_cases h : q.1 = k
    · simp [h, hkv]
    · simpa [h] using hc q hq
  · rcases List.mem_append.mp hp with h | h
    · exact hc p h
    · simp only [List.mem_singleton] at h
      subst h; exact hkv

theorem keyConsistent_keyedFold {α β : Type} {keyOf : α → String} {keyf : β → String}
    {valf : β → α} {m : List (String × α)} (l : List β) (hc : keyConsistent keyOf m)
    (hkv : ∀ x ∈ l, keyOf (valf x) = keyf x) :
    keyConsistent keyOf (keyedFold keyf valf m l) := by
  induction l generalizing m with
  | nil => exact hc
  | cons x t ih =>
    exact ih (keyConsistent_odInsert hc (hkv x (List.mem_cons_self x t)))
      (fun y hy => hkv y (List.mem_cons_of_mem x hy))

theorem keyConsistent_filter {α : Type} {keyOf : α → String} {m : List (String × α)}
    (pred : String × α → Bool) (hc : keyConsistent keyOf m) :
    keyConsistent keyOf (m.filter pred) :=
  fun p hp => hc p (List.mem_of_mem_filter hp)

theorem nodup_odKeys_filter {α : Type} {m : List (String × α)} (pred : String × α → Bool)
    (h : (odKeys m).Nodup) : (odKeys (m.filter pred)).Nodup :=
  ((List.filter_sublist m).map Prod.fst).nodup h

theorem odLookup_filter_key {α : Type} (c : String → Bool) (m : List (String × α)) (k : String) :
    odLookup (m.filter (fun p => c p.1)) k = if c k then odLookup m k else none := by
  induction m with
  | nil => cases hc : c k <;> simp [hc]
  | cons p t ih =>
    obtain ⟨a, w⟩ := p
    rw [List.filter_cons]
    by_cases hca : c a = true
    · rw [if_pos (by simpa using hca)]
      by_cases hak : a = k
      · subst hak; simp [odLookup_cons, hca]
      · simp [odLookup_cons, hak, ih]
    · rw [if_neg (by simpa using hca)]
      by_cases hak : a = k
      · have hck : c k = false := by simpa [← hak] using hca
        simp [odLookup_cons, hak, hck, ih]
      · simp [odLookup_cons, hak, ih]

theorem getLast?_filter_key {α : Type} {m : List (String × α)} (h : (odKeys m).Nodup)
    (k : String) :
    ((m.filter (fun p => p.1 = k)).getLast?.map Prod.snd) = odLookup m k := by
  induction m with
  | nil => simp
  | cons p t ih =>
    obtain ⟨a, w⟩ := p
    rw [odKeys_cons, List.nodup_cons] at h
    by_cases ha : a = k
    · subst ha
      have hnil : t.filter (fun p => p.1 = a) = [] := by
        rw [List.filter_eq_nil_iff]
        intro p hp hc
        have hmem : p.1 ∈ odKeys t := List.mem_map_of_mem Prod.fst hp
        rw [decide_eq_true_eq.mp hc] at hmem
        exact h.1 hmem
      rw [List.filter_cons, if_pos (by simp), hnil]
      simp [odLookup_cons]
    · rw [List.filter_cons, if_neg (by simpa using ha), odLookup_cons, if_neg ha]
      exact ih h.2

theorem mem_snd_iff_odLookup {α : Type} (keyOf : α → String) {m : List (String × α)}
    (h : (odKeys m).Nodup) (hc : keyConsistent keyOf m) (r : α) :
    r ∈ m.map Prod.snd ↔ odLookup m (keyOf r) = some r := by
  constructor
  · intro hr
    obtain ⟨p, hp, hpr⟩ := List.mem_map.mp hr
    have hk := hc p hp
    subst hpr
    rw [hk]
    exact (mem_iff_odLookup h p.1 p.2).mp hp
  · intro hl
    exact List.mem_map_of_mem Prod.snd ((mem_iff_odLookup h (keyOf r) r).mpr hl)

/-! ## The snapshot merge engine (`SaveGamesUseCase`, save_games.py) -/

/-- A serialized game record: the fields that the merge engine reads or that
the claims mention.  `freePeriodEnd` is `game_dict["freePeriod"]["end"]`;
`none` models a record (loaded from a previously persisted document) in which
that key path is missing. -/
structure Rec where
  id : String
  title : String
  freePeriodEnd : Option String
  deriving DecidableEq

/-- `FreePeriod` (free_period.py): a validity window; timestamps modelled as
integers (UTC instants, totally ordered exactly like timezone-aware datetimes). -/
structure FreePeriod where
  startTime : Int
  endTime : Int
  deriving DecidableEq

/-- The fields of the `Game` entity (game.py) that the merge engine reads. -/
structure Game where
  id : String
  title : String
  free_period : FreePeriod
  deriving DecidableEq

/-- `FreePeriod.is_active`: `self.start <= now <= self.end`. -/
def is_active (now : Int) (p : FreePeriod) : Bool :=
  decide (p.startTime ≤ now) && decide (now ≤ p.endTime)

/-- `Game.is_currently_free`: the free window is active now. -/
def is_currently_free (now : Int) (g : Game) : Bool := is_active now g.free_period

/-- `Game.is_upcoming`: `now < self.free_period.start`. -/
def is_upcoming (now : Int) (g : Game) : Bool := decide (now < g.free_period.startTime)

/-- `_game_to_dict` (json_file_repo.py), restricted to the fields of `Rec`:
the record serialized from a fresh game, with
`freePeriod.end = isoformat(free_period.end)`.  `serializeTime` stands for
that injective rendering of the timestamp. -/
def serializeTime (t : Int) : String := toString t

def game_to_dict (g : Game) : Rec :=
  { id := g.id, title := g.title,
    freePeriodEnd := some (serializeTime g.free_period.endTime) }

/-- The previously persisted document as `execute` receives it
(`existing_data`): the three partitions, each a list of serialized records. -/
structure ExistingData where
  past : List Rec
  currentFree : List Rec
  upcoming : List Rec
  deriving DecidableEq

/-- The document `execute` returns (`updated` is the current UTC timestamp). -/
structure OutputDoc where
  updated : Int
  currentFree : List Rec
  upcoming : List Rec
  past : List Rec
  deriving DecidableEq

/-- `{g["id"]: g for g in l}`: a dict comprehension keyed by record id;
later entries overwrite earlier ones, first insertion fixes the position. -/
def dictOfList (l : List Rec) : List (String × Rec) := keyedFold Rec.id id [] l

/-- One iteration of the classification loop of `_categorize_games`. -/
def catStep (now : Int) (acc : List (String × Rec) × List (String × Rec)) (g : Game) :
    List (String × Rec) × List (String × Rec) :=
  let game_dict := game_to_dict g
  if is_currently_free now g then (odInsert acc.1 g.id game_dict, acc.2)
  else if is_upcoming now g then (acc.1, odInsert acc.2 g.id game_dict)
  else acc

/-- `SaveGamesUseCase._categorize_games`: classify the fresh games into
`(current_free, upcoming)` dicts keyed by id and return their value lists. -/
def categorize_games (now : Int) (games : List Game) : List Rec × List Rec :=
  let r := games.foldl (catStep now) ([], [])
  (r.1.map Prod.snd, r.2.map Prod.snd)

/-- `SaveGamesUseCase._past_sort_key`:
`game_dict.get("freePeriod", {}).get("end", "")`. -/
def past_sort_key (r : Rec) : String := r.freePeriodEnd.getD ""

/-- `current_ids = {g["id"] for g in current_free}` in `execute`. -/
def current_ids (now : Int) (games : List Game) : List String :=
  (categorize_games now games).1.map Rec.id

/-- `upcoming_ids = {g["id"] for g in upcoming}` in `execute`. -/
def upcoming_ids (now : Int) (games : List Game) : List String :=
  (categorize_games now games).2.map Rec.id

/-- `game_id in current_ids | upcoming_ids`: the id is classified current or
upcoming this run. -/
def is_live (now : Int) (games : List Game) (k : String) : Bool :=
  decide (k ∈ current_ids now games ∨ k ∈ upcoming_ids now games)

/-- The carried-forward past dict after the first loop of `execute`:
`for game_id in current_ids | upcoming_ids: existing_past.pop(game_id, None)`
(set iteration order is irrelevant: popping keys commutes, leaving exactly the
entries whose key is not live). -/
def past_after_pop (now : Int) (games : List Game) (existing_data : ExistingData) :
    List (String × Rec) :=
  (dictOfList existing_data.past).filter (fun p => !is_live now games p.1)

/-- The past dict after the second loop of `execute`:
`for game_id, game_dict in existing_current.items():`
`  if game_id not in current_ids and game_id not in upcoming_ids:`
`    existing_past[game_id] = game_dict`. -/
def past_final (now : Int) (games : List Game) (existing_data : ExistingData) :
    List (String × Rec) :=
  (dictOfList existing_data.currentFree).foldl
    (fun m p => if !is_live now games p.1 then odInsert m p.1 p.2 else m)
    (past_after_pop now games existing_data)

/-- `SaveGamesUseCase.execute` — the spec's `Merge(freshItems, previousDocument)`.
Composition of the stages above, step by step against the Python source:
parse `past` and `currentFree` into id-keyed dicts; classify the fresh games;
pop every live id (now current or upcoming) from the carried-forward past dict;
move every previously-current record whose id is not live into the past dict;
`past_list = sorted(existing_past.values(), key=self._past_sort_key, reverse=True)`
(a stable descending sort, which `insSort` computes exactly);
stamp `updated` with the current time and assemble the document. -/
def execute (now : Int) (games : List Game) (existing_data : ExistingData) : OutputDoc :=
  { updated := now,
    currentFree := (categorize_games now games).1,
    upcoming := (categorize_games now games).2,
    past := insSort (fun a b => strLe (past_sort_key b) (past_sort_key a))
      ((past_final now games existing_data).map Prod.snd) }

/-- The last record in `l` whose `"id"` is `k` — what "the previous record
with that id" means when a partition list holds duplicate ids (CPython dict
comprehensions keep the last occurrence). -/
def lastRec (l : List Rec) (k : String) : Option Rec :=
  (l.filter (fun r => r.id = k)).getLast?

/-! ### Characterization of the intermediate dicts -/

theorem odLookup_dictOfList (l : List Rec) (k : String) :
    odLookup (dictOfList l) k = lastRec l k := by
  rw [dictOfList, odLookup_keyedFold, lastRec]
  cases h : (l.filter (fun r => r.id = k)).getLast? <;> simp [h]

theorem nodup_odKeys_dictOfList (l : List Rec) : (odKeys (dictOfList l)).Nodup :=
  nodup_odKeys_keyedFold _ _ l List.nodup_nil

theorem keyConsistent_dictOfList (l : List Rec) : keyConsistent Rec.id (dictOfList l) :=
  keyConsistent_keyedFold l (fun p hp => absurd hp (List.not_mem_nil p)) (fun _ _ => rfl)

/-- The classification loop, split into the two independent dict folds it
interleaves: the current bucket folds over the games passing
`is_currently_free`, the upcoming bucket over those passing the `elif`
(not currently free, but upcoming). -/
theorem catFold_split (now : Int) (games : List Game)
    (m₁ m₂ : List (String × Rec)) :
    games.foldl (catStep now) (m₁, m₂)
      = (keyedFold Game.id game_to_dict m₁ (games.filter (is_currently_free now)),
         keyedFold Game.id game_to_dict m₂
           (games.filter (fun g => !is_currently_free now g && is_upcoming now g))) := by
  induction games generalizing m₁ m₂ with
  | nil => rfl
  | cons g t ih =>
    rw [List.foldl_cons, List.filter_cons, List.filter_cons]
    cases hc : is_currently_free now g with
    | true =>
      simp only [catStep, hc, if_pos rfl, Bool.not_true, Bool.false_and, if_true]
      rw [ih, keyedFold_cons]
      simp
    | false =>
      cases hu : is_upcoming now g with
      | true =>
        simp only [catStep, hc, hu, Bool.not_false, Bool.true_and, if_true]
        rw [ih, keyedFold_cons]
        simp
      | false =>
        simp only [catStep, hc, hu, Bool.not_false, Bool.true_and]
        rw [ih]
        simp

theorem categorize_games_fst (now : Int) (games : List Game) :
    (categorize_games now games).1
      = (keyedFold Game.id game_to_dict [] (games.filter (is_currently_free now))).map
          Prod.snd := by
  rw [categorize_games, catFold_split]

theorem categorize_games_snd (now : Int) (games : List Game) :
    (categorize_games now games).2
      = (keyedFold Game.id game_to_dict []
          (games.filter (fun g => !is_currently_free now g && is_upcoming now g))).map
            Prod.snd := by
  rw [categorize_games, catFold_split]

/-- Conditional insertion loops are folds over the filtered list. -/
theorem foldl_condInsert {α : Type} (c : String → Bool) (l : List (String × α))
    (m : List (String × α)) :
    l.foldl (fun acc p => if c p.1 then odInsert acc p.1 p.2 else acc) m
      = keyedFold Prod.fst Prod.snd m (l.filter (fun p => c p.1)) := by
  induction l generalizing m with
  | nil => rfl
  | cons p t ih =>
    rw [List.foldl_cons, List.filter_cons]
    by_cases hc : c p.1 = true
    · rw [if_pos hc, if_pos hc, keyedFold_cons, ih]
    · rw [if_neg hc, if_neg hc, ih]

theorem odLookup_past_after_pop (now : Int) (games : List Game)
    (existing_data : ExistingData) (k : String) :
    odLookup (past_after_pop now games existing_data) k
      = if is_live now games k then none else lastRec existing_data.past k := by
  rw [past_after_pop, odLookup_filter_key (fun s => !is_live now games s),
    odLookup_dictOfList]
  cases h : is_live now games k <;> simp [h]

/-- The final past dict, looked up at `k`: nothing if `k` is classified
current or upcoming this run; otherwise the last previously-current record
with that id if there is one, else the last previously-past record with it. -/
theorem odLookup_past_final (now : Int) (games : List Game)
    (existing_data : ExistingData) (k : String) :
    odLookup (past_final now games existing_data) k
      = if is_live now games k then none
        else ((lastRec existing_data.currentFree k).orElse
          (fun _ => lastRec existing_data.past k)) := by
  rw [past_final, foldl_condInsert (fun s => !is_live now games s), odLookup_keyedFold]
  by_cases hk : is_live now games k = true
  · have h1 : ((dictOfList existing_data.currentFree).filter
        (fun p => !is_live now games p.1)).filter (fun p => p.1 = k) = [] := by
      rw [List.filter_eq_nil_iff]
      intro p hp hpk
      have hlive : (!is_live now games p.1) = true := (List.mem_filter.mp hp).2
      rw [decide_eq_true_eq.mp hpk, hk] at hlive
      exact Bool.false_ne_true hlive
    rw [h1, if_pos hk]
    simp [odLookup_past_after_pop, hk]
  · have h2 : ((dictOfList existing_data.currentFree).filter
        (fun p => !is_live now games p.1)).filter (fun p => p.1 = k)
        = (dictOfList existing_data.currentFree).filter (fun p => p.1 = k) := by
      rw [List.filter_comm, List.filter_eq_self.mpr]
      intro p hp
      have hpk : p.1 = k := decide_eq_true_eq.mp (List.mem_filter.mp hp).2
      simp [hpk, hk]
    rw [h2, if_neg hk]
    have h3 := getLast?_filter_key (nodup_odKeys_dictOfList existing_data.currentFree) k
    rw [h3, odLookup_dictOfList]
    cases hcur : lastRec existing_data.currentFree k <;>
      simp [hcur, odLookup_past_after_pop, hk]

theorem nodup_odKeys_past_final (now : Int) (games : List Game)
    (existing_data : ExistingData) :
    (odKeys (past_final now games existing_data)).Nodup := by
  rw [past_final, foldl_condInsert (fun s => !is_live now games s)]
  exact nodup_odKeys_keyedFold _ _ _
    (nodup_odKeys_filter _ (nodup_odKeys_dictOfList existing_data.past))

theorem keyConsistent_past_final (now : Int) (games : List Game)
    (existing_data : ExistingData) :
    keyConsistent Rec.id (past_final now games existing_data) := by
  rw [past_final, foldl_condInsert (fun s => !is_live now games s)]
  refine keyConsistent_keyedFold _ ?_ ?_
  · exact keyConsistent_filter _ (keyConsistent_dictOfList existing_data.past)
  · intro p hp
    exact keyConsistent_dictOfList existing_data.currentFree p (List.mem_of_mem_filter hp)

/-- Membership in the output past list, before anything else is known:
exactly the values of the final past dict, at their own id. -/
theorem mem_execute_past (now : Int) (games : List Game)
    (existing_data : ExistingData) (r : Rec) :
    r ∈ (execute now games existing_data).past ↔
      odLookup (past_final now games existing_data) r.id = some r := by
  show r ∈ insSort _ _ ↔ _
  rw [mem_insSort]
  exact mem_snd_iff_odLookup Rec.id (nodup_odKeys_past_final now games existing_data)
    (keyConsistent_past_final now games existing_data) r

/-- The values of a dict with unique, consistent keys, filtered by key:
the looked-up value or nothing. -/
theorem filter_map_snd {α : Type} (keyOf : α → String) {m : List (String × α)}
    (h : (odKeys m).Nodup) (hc : keyConsistent keyOf m) (k : String) :
    (m.map Prod.snd).filter (fun r => keyOf r = k) = (odLookup m k).toList := by
  induction m with
  | nil => simp
  | cons p t ih =>
    obtain ⟨a, w⟩ := p
    rw [odKeys_cons, List.nodup_cons] at h
    have hw : keyOf w = a := hc (a, w) (List.mem_cons_self _ _)
    have hct : keyConsistent keyOf t := fun q hq => hc q (List.mem_cons_of_mem _ hq)
    by_cases ha : a = k
    · subst ha
      have hnone : odLookup t a = none := (odLookup_eq_none_iff t a).mpr h.1
      rw [List.map_cons, List.filter_cons, if_pos (by simp [hw]), ih h.2 hct,
        odLookup_cons, if_pos rfl, hnone]
      rfl
    · rw [List.map_cons, List.filter_cons, if_neg (by simp [hw, ha]), ih h.2 hct,
        odLookup_cons, if_neg ha]

theorem mem_snd_odInsert {α : Type} {m : List (String × α)} {k : String} {v r : α}
    (h : r ∈ (odInsert m k v).map Prod.snd) : r ∈ m.map Prod.snd ∨ r = v := by
  unfold odInsert at h
  split at h
  · rw [List.map_map] at h
    obtain ⟨p, hp, hpr⟩ := List.mem_map.mp h
    by_cases hk : p.1 = k
    · right; simpa [Function.comp, hk] using hpr.symm
    · left
      rw [← hpr]
      simpa [Function.comp, hk] using List.mem_map_of_mem (Prod.snd) hp
  · rw [List.map_append] at h
    rcases List.mem_append.mp h with h' | h'
    · exact Or.inl h'
    · right; simpa using h'

theorem mem_snd_keyedFold {α β : Type} {keyf : β → String} {valf : β → α}
    {m : List (String × α)} {l : List β} {r : α}
    (h : r ∈ (keyedFold keyf valf m l).map Prod.snd) :
    r ∈ m.map Prod.snd ∨ ∃ x ∈ l, valf x = r := by
  induction l generalizing m with
  | nil => exact Or.inl h
  | cons x t ih =>
    rw [keyedFold_cons] at h
    rcases ih h with h' | ⟨y, hy, hr⟩
    · rcases mem_snd_odInsert h' with h'' | h''
      · exact Or.inl h''
      · exact Or.inr ⟨x, List.mem_cons_self x t, h''.symm⟩
    · exact Or.inr ⟨y, List.mem_cons_of_mem x hy, hr⟩

theorem mem_odKeys_keyedFold_nil {α β : Type} (keyf : β → String) (valf : β → α)
    (l : List β) (k : String) :
    k ∈ odKeys (keyedFold keyf valf [] l) ↔ ∃ x ∈ l, keyf x = k := by
  have hlook := odLookup_keyedFold keyf valf [] l k
  constructor
  · intro hk
    by_contra hne
    push_neg at hne
    have hnil : l.filter (fun x => keyf x = k) = [] :=
      List.filter_eq_nil_iff.mpr (fun x hx => by simpa using hne x hx)
    have : odLookup (keyedFold keyf valf [] l) k = none := by simp [hlook, hnil]
    exact ((odLookup_eq_none_iff _ k).mp this) hk
  · rintro ⟨x, hx, hk⟩
    by_contra hk'
    have hnone : odLookup (keyedFold keyf valf [] l) k = none :=
      (odLookup_eq_none_iff _ k).mpr hk'
    rw [hlook] at hnone
    have hmem : x ∈ l.filter (fun y => keyf y = k) :=
      List.mem_filter.mpr ⟨hx, by simp [hk]⟩
    have : l.filter (fun y => keyf y = k) = [] := by
      cases hl : (l.filter (fun y => keyf y = k)).getLast? with
      | none => exact List.getLast?_eq_none_iff.mp hl
      | some y => rw [hl] at hnone; simp at hnone
    rw [this] at hmem
    exact List.not_mem_nil x hmem

theorem map_snd_keyOf {α : Type} (keyOf : α → String) {m : List (String × α)}
    (hc : keyConsistent keyOf m) : (m.map Prod.snd).map keyOf = odKeys m := by
  rw [List.map_map, odKeys]
  exact List.map_congr_left (fun p hp => hc p hp)

theorem keyConsistent_gameFold (l : List Game) :
    keyConsistent Rec.id (keyedFold Game.id game_to_dict [] l) :=
  @keyConsistent_keyedFold Rec Game Rec.id Game.id game_to_dict [] l
    (fun p hp => absurd hp (List.not_mem_nil p)) (fun _ _ => rfl)

theorem mem_current_ids (now : Int) (games : List Game) (k : String) :
    k ∈ current_ids now games
      ↔ ∃ g ∈ games, is_currently_free now g = true ∧ g.id = k := by
  rw [current_ids, categorize_games_fst,
    map_snd_keyOf Rec.id (keyConsistent_gameFold _), mem_odKeys_keyedFold_nil]
  constructor
  · rintro ⟨g, hg, hk⟩
    obtain ⟨hmem, hfree⟩ := List.mem_filter.mp hg
    exact ⟨g, hmem, hfree, hk⟩
  · rintro ⟨g, hmem, hfree, hk⟩
    exact ⟨g, List.mem_filter.mpr ⟨hmem, hfree⟩, hk⟩

theorem mem_upcoming_ids (now : Int) (games : List Game) (k : String) :
    k ∈ upcoming_ids now games
      ↔ ∃ g ∈ games, (!is_currently_free now g && is_upcoming now g) = true ∧ g.id = k := by
  rw [upcoming_ids, categorize_games_snd,
    map_snd_keyOf Rec.id (keyConsistent_gameFold _), mem_odKeys_keyedFold_nil]
  constructor
  · rintro ⟨g, hg, hk⟩
    obtain ⟨hmem, hup⟩ := List.mem_filter.mp hg
    exact ⟨g, hmem, hup, hk⟩
  · rintro ⟨g, hmem, hup, hk⟩
    exact ⟨g, List.mem_filter.mpr ⟨hmem, hup⟩, hk⟩

/-- Every record of the output past partition carries an id that is not
classified current or upcoming this run. -/
theorem past_id_not_live {now : Int} {games : List Game} {existing_data : ExistingData}
    {r : Rec} (h : r ∈ (execute now games existing_data).past) :
    is_live now games r.id = false := by
  rw [mem_execute_past] at h
  cases hl : is_live now games r.id with
  | false => rfl
  | true => rw [odLookup_past_final, if_pos hl] at h; exact absurd h (by simp)

/-- A record of the current bucket is the serialization of a currently-free
fresh game with the same id (and analogously for the upcoming bucket). -/
theorem mem_categorize_fst {now : Int} {games : List Game} {c : Rec}
    (h : c ∈ (categorize_games now games).1) :
    ∃ g ∈ games, is_currently_free now g = true ∧ game_to_dict g = c := by
  rw [categorize_games_fst] at h
  rcases mem_snd_keyedFold h with h' | ⟨g, hg, hr⟩
  · simp at h'
  · obtain ⟨hmem, hfree⟩ := List.mem_filter.mp hg
    exact ⟨g, hmem, hfree, hr⟩

theorem mem_categorize_snd {now : Int} {games : List Game} {u : Rec}
    (h : u ∈ (categorize_games now games).2) :
    ∃ g ∈ games, (!is_currently_free now g && is_upcoming now g) = true
      ∧ game_to_dict g = u := by
  rw [categorize_games_snd] at h
  rcases mem_snd_keyedFold h with h' | ⟨g, hg, hr⟩
  · simp at h'
  · obtain ⟨hmem, hup⟩ := List.mem_filter.mp hg
    exact ⟨g, hmem, hup, hr⟩


theorem orElse_none_right {α : Type} (x : Option α) : (x.orElse fun _ => none) = x := by
  cases x <;> rfl

theorem filter_and_comm {β : Type} (p q : β → Bool) (l : List β) :
    l.filter (fun a => p a && q a) = l.filter (fun a => q a && p a) :=
  List.filter_congr (fun a _ => Bool.and_comm (p a) (q a))

/-! ## Claim theorems for the merge engine -/

/-- **C3** (confirmed): every id classified current or upcoming this run is
absent from the output past partition, and a fresh game classified current
(or upcoming) contributes its id to the corresponding output partition — in
particular a record of the previous `past` whose id reappears as current is
no longer in `past` and its id is in `currentFree`. -/
theorem live_ids_not_in_past (now : Int) (games : List Game)
    (existing_data : ExistingData) :
    (∀ r ∈ (execute now games existing_data).past,
       r.id ∉ (execute now games existing_data).currentFree.map Rec.id
       ∧ r.id ∉ (execute now games existing_data).upcoming.map Rec.id)
    ∧ (∀ g ∈ games, is_currently_free now g = true →
        g.id ∈ (execute now games existing_data).currentFree.map Rec.id)
    ∧ (∀ g ∈ games, is_currently_free now g = false → is_upcoming now g = true →
        g.id ∈ (execute now games existing_data).upcoming.map Rec.id) := by
  refine ⟨?_, ?_, ?_⟩
  · intro r hr
    have hl := past_id_not_live hr
    have hnot : ¬(r.id ∈ current_ids now games ∨ r.id ∈ upcoming_ids now games) := by
      simpa [is_live] using hl
    exact ⟨fun hc => hnot (Or.inl hc), fun hc => hnot (Or.inr hc)⟩
  · intro g hg hfree
    exact (mem_current_ids now games g.id).mpr ⟨g, hg, hfree, rfl⟩
  · intro g hg hnfree hup
    exact (mem_upcoming_ids now games g.id).mpr ⟨g, hg, by simp [hnfree, hup], rfl⟩

/-- **C8** (confirmed): the output past list is sorted descending by the
record's window-end sort key; a record with the field missing has sort key
`""`, and every record after a key-`""` record also has key `""` (it is
placed last, tied with the other keyless records). -/
theorem past_sorted_desc (now : Int) (games : List Game)
    (existing_data : ExistingData) :
    ((execute now games existing_data).past.Pairwise
       (fun a b => strLe (past_sort_key b) (past_sort_key a) = true))
    ∧ ((execute now games existing_data).past.Pairwise
       (fun a b => a.freePeriodEnd = none → past_sort_key b = ""))
    ∧ (∀ r : Rec, r.freePeriodEnd = none → past_sort_key r = "") := by
  have h1 : ((execute now games existing_data).past.Pairwise
      (fun a b => strLe (past_sort_key b) (past_sort_key a) = true)) := by
    show (insSort _ _).Pairwise _
    exact pairwise_insSort _
      (fun a b => strLe_total (past_sort_key b) (past_sort_key a))
      (fun hab hbc => strLe_trans hbc hab) _
  refine ⟨h1, h1.imp ?_, ?_⟩
  · intro a b hr ha
    have hka : past_sort_key a = "" := by simp [past_sort_key, ha]
    rw [hka] at hr
    exact strLe_empty_right hr
  · intro r h
    simp [past_sort_key, h]

/-- A fresh game list on which C1's statement fails: no fresh items, and the
previous document holds the same id `"g1"` both in `past` and in
`currentFree`.  The merge keeps the `currentFree` record only: the original
past record is overwritten, so the output past does not contain "the
previous past records plus the previous currentFree records". -/
def c1PastRec : Rec := { id := "g1", title := "old past record", freePeriodEnd := some "2024-01-08" }

def c1CurRec : Rec := { id := "g1", title := "former current record", freePeriodEnd := some "2025-01-08" }

def c1Existing : ExistingData := { past := [c1PastRec], currentFree := [c1CurRec], upcoming := [] }

/-- **C1** (counterexample): with `freshItems = []` nothing is live, the
previous past record `c1PastRec` is among "the previous past records whose
ids are not classified current or upcoming", yet it is **not** in the output
past partition (the previous currentFree record with the same id overwrote
it).  So the past partition does not consist of the previous past records
plus the non-live previous currentFree records. -/
theorem merge_past_composition_cex :
    c1PastRec ∈ c1Existing.past
    ∧ (execute 0 [] c1Existing).currentFree = []
    ∧ (execute 0 [] c1Existing).upcoming = []
    ∧ c1PastRec ∉ (execute 0 [] c1Existing).past
    ∧ (execute 0 [] c1Existing).past = [c1CurRec] := by decide

/-- **C1** (amended): the output past partition consists exactly of, for each
id not classified current or upcoming this run, the last previous
`currentFree` record with that id if there is one, otherwise the last
previous `past` record with that id (on an id present in both, the
currentFree record overwrites the past one); the previous `upcoming`
partition contributes nothing to any output partition; and `Merge([], prev)`
yields `currentFree = []` (with every non-colliding previous past and
previous currentFree record in the past partition, by the first part, since
nothing is live). -/
theorem merge_past_characterization (now : Int) (games : List Game)
    (existing_data : ExistingData) :
    (∀ r : Rec, r ∈ (execute now games existing_data).past ↔
       (is_live now games r.id = false ∧
         ((lastRec existing_data.currentFree r.id).orElse
            (fun _ => lastRec existing_data.past r.id)) = some r))
    ∧ (∀ u : List Rec, execute now games { existing_data with upcoming := u }
         = execute now games existing_data)
    ∧ (execute now [] existing_data).currentFree = [] := by
  refine ⟨?_, fun u => rfl, rfl⟩
  intro r
  rw [mem_execute_past, odLookup_past_final]
  cases hl : is_live now games r.id with
  | false => simp
  | true => simp

/-- A fresh list on which C2's statement fails: the same id occurs twice,
once inside its free window and once with a window that has not started.
The classification puts one record in each bucket, so the output document
holds two records for the id, and the `currentFree` one is built from the
*first* occurrence. -/
def c2GameA : Game := { id := "dup", title := "A", free_period := { startTime := 0, endTime := 20 } }

def c2GameB : Game := { id := "dup", title := "B", free_period := { startTime := 15, endTime := 30 } }

/-- **C2** (counterexample): at `now = 10`, `c2GameA` is currently free and
`c2GameB` (same id, later window) is upcoming.  The output document holds
**two** records with id `"dup"`, and the `currentFree` record keeps title
`"A"` from the earlier occurrence — not "exactly one record for that id,
built from the last occurrence". -/
theorem categorize_last_wins_cex :
    (((execute 10 [c2GameA, c2GameB] ⟨[], [], []⟩).currentFree
        ++ (execute 10 [c2GameA, c2GameB] ⟨[], [], []⟩).upcoming
        ++ (execute 10 [c2GameA, c2GameB] ⟨[], [], []⟩).past).filter
          (fun r => decide (r.id = "dup"))).length = 2
    ∧ (execute 10 [c2GameA, c2GameB] ⟨[], [], []⟩).currentFree.map Rec.title = ["A"] := by
  decide

/-- **C2** (amended): last occurrence wins *within each classification
bucket*: for every id, the output `currentFree` holds exactly one record for
the ids having a currently-free occurrence — the serialization of the last
such occurrence — and none otherwise; likewise `upcoming` with the
not-free-but-upcoming occurrences.  (An id occurring both ways yields one
record in each bucket; when all occurrences of an id fall in one bucket —
e.g. two currently-free items titled "A" then "B" — the document holds
exactly one record for it, built from the last occurrence, title "B".) -/
theorem categorize_last_wins_per_bucket (now : Int) (games : List Game)
    (existing_data : ExistingData) (k : String) :
    (execute now games existing_data).currentFree.filter (fun r => decide (r.id = k))
      = ((games.filter (fun g => is_currently_free now g && decide (g.id = k))).getLast?.map
          game_to_dict).toList
    ∧ (execute now games existing_data).upcoming.filter (fun r => decide (r.id = k))
      = ((games.filter (fun g =>
            (!is_currently_free now g && is_upcoming now g) && decide (g.id = k))).getLast?.map
          game_to_dict).toList := by
  constructor
  · rw [show (execute now games existing_data).currentFree
        = (categorize_games now games).1 from rfl, categorize_games_fst,
      filter_map_snd Rec.id (nodup_odKeys_keyedFold _ _ _ (by simp))
        (keyConsistent_gameFold _) k,
      odLookup_keyedFold, List.filter_filter]
    simp only [odLookup_nil, orElse_none_right]
    rw [filter_and_comm (fun a => decide (a.id = k)) (fun a => is_currently_free now a) games]
  · rw [show (execute now games existing_data).upcoming
        = (categorize_games now games).2 from rfl, categorize_games_snd,
      filter_map_snd Rec.id (nodup_odKeys_keyedFold _ _ _ (by simp))
        (keyConsistent_gameFold _) k,
      odLookup_keyedFold, List.filter_filter]
    simp only [odLookup_nil, orElse_none_right]
    rw [filter_and_comm (fun a => decide (a.id = k))
      (fun a => !is_currently_free now a && is_upcoming now a) games]

/-- Fresh items on which C9's statement fails: one id, two windows. -/
def c9GameP : Game := { id := "x2", title := "p", free_period := { startTime := 50, endTime := 150 } }

def c9GameQ : Game := { id := "x2", title := "q", free_period := { startTime := 200, endTime := 300 } }

/-- **C9** (counterexample): at `now = 100`, id `"x2"` occurs once currently
free and once upcoming, and ends up in **both** the `currentFree` and the
`upcoming` partitions: the three partitions are not pairwise mutually
exclusive by id. -/
theorem partitions_disjoint_cex :
    "x2" ∈ (execute 100 [c9GameP, c9GameQ] ⟨[], [], []⟩).currentFree.map Rec.id
    ∧ "x2" ∈ (execute 100 [c9GameP, c9GameQ] ⟨[], [], []⟩).upcoming.map Rec.id := by
  decide

/-- **C9** (amended): the past partition is disjoint by id from both
`currentFree` and `upcoming`, unconditionally; `currentFree` and `upcoming`
are disjoint by id provided no id occurs in the fresh list both as a
currently-free occurrence and as an upcoming occurrence (in particular
whenever the fresh ids are distinct). -/
theorem partitions_disjoint (now : Int) (games : List Game)
    (existing_data : ExistingData) :
    (∀ r ∈ (execute now games existing_data).past,
       (∀ c ∈ (execute now games existing_data).currentFree, r.id ≠ c.id)
       ∧ (∀ u ∈ (execute now games existing_data).upcoming, r.id ≠ u.id))
    ∧ ((∀ g1 ∈ games, ∀ g2 ∈ games, g1.id = g2.id →
          ¬(is_currently_free now g1 = true ∧ is_upcoming now g2 = true)) →
        ∀ c ∈ (execute now games existing_data).currentFree,
          ∀ u ∈ (execute now games existing_data).upcoming, c.id ≠ u.id) := by
  constructor
  · intro r hr
    have hl := past_id_not_live hr
    have hnot : ¬(r.id ∈ current_ids now games ∨ r.id ∈ upcoming_ids now games) := by
      simpa [is_live] using hl
    constructor
    · intro c hc he
      exact hnot (Or.inl (he ▸ List.mem_map_of_mem Rec.id hc))
    · intro u hu he
      exact hnot (Or.inr (he ▸ List.mem_map_of_mem Rec.id hu))
  · intro hsep c hc u hu he
    obtain ⟨g1, hg1, hfree1, hd1⟩ := mem_categorize_fst hc
    obtain ⟨g2, hg2, hup2, hd2⟩ := mem_categorize_snd hu
    have hid : g1.id = g2.id := by
      have e1 : g1.id = c.id := by rw [← hd1]; rfl
      have e2 : g2.id = u.id := by rw [← hd2]; rfl
      rw [e1, e2, he]
    refine hsep g1 hg1 g2 hg2 hid ⟨hfree1, ?_⟩
    simp only [Bool.and_eq_true] at hup2
    exact hup2.2


/-! ## The Rating value object (rating.py) -/

/-- `Rating`: the four named sub-scores plus the extension-source mapping.
Scores are modelled as rationals (the Python floats/ints carry exact decimal
values in every computation the claims touch). -/
structure Rating where
  epic : Option ℚ := none
  metacritic : Option ℚ := none
  opencritic : Option ℚ := none
  steam : Option ℚ := none
  additional_sources : List (String × ℚ) := []
  deriving DecidableEq

/-- `RATING_SOURCE_CONFIGS`, restricted to the `normalize` entry of each
config (`min`/`max` only matter to construction-time validation, which no
claim here touches): epic is rescaled from 0–5 via `(v / 5) * 100`, the
0–100 sources normalize to themselves. -/
def RATING_SOURCE_CONFIGS : List (String × (ℚ → ℚ)) :=
  [("epic", fun v => v / 5 * 100),
   ("metacritic", fun v => v),
   ("opencritic", fun v => v),
   ("steam", fun v => v)]

/-- `_normalize_score`: apply the registered normalizer; identity for an
unregistered source name. -/
def normalize_score (source_name : String) (value : ℚ) : ℚ :=
  match odLookup RATING_SOURCE_CONFIGS source_name with
  | none => value
  | some normalize => normalize value

/-- `Rating.get_all_scores_normalized`: the present named fields in fixed
order (epic, metacritic, opencritic, steam), then the extension sources in
insertion order, each value normalized; built as a dict keyed by source
name. -/
def get_all_scores_normalized (r : Rating) : List (String × ℚ) :=
  let result : List (String × ℚ) := []
  let result := match r.epic with
    | some v => odInsert result "epic" (normalize_score "epic" v)
    | none => result
  let result := match r.metacritic with
    | some v => odInsert result "metacritic" (normalize_score "metacritic" v)
    | none => result
  let result := match r.opencritic with
    | some v => odInsert result "opencritic" (normalize_score "opencritic" v)
    | none => result
  let result := match r.steam with
    | some v => odInsert result "steam" (normalize_score "steam" v)
    | none => result
  r.additional_sources.foldl
    (fun acc p => odInsert acc p.1 (normalize_score p.1 p.2)) result

/-- `Rating.aggregate_score(weights=None)`: if no scores are present return
`0.0`; default the weights to `1.0` per present source when no mapping is
supplied; if the total weight (`weights.get(k, 0.0)` summed over the present
sources) is `0` return `0.0`; otherwise the weighted sum divided by the
total weight. -/
def aggregate_score (r : Rating) (weights : Option (List (String × ℚ))) : ℚ :=
  let normalized := get_all_scores_normalized r
  if normalized.isEmpty then 0
  else
    let w := match weights with
      | none => normalized.map (fun p => (p.1, (1 : ℚ)))
      | some ws => ws
    let total_weight := (normalized.map (fun p => (odLookup w p.1).getD 0)).sum
    if total_weight = 0 then 0
    else (normalized.map (fun p => p.2 * (odLookup w p.1).getD 0)).sum / total_weight

/-- Modelled from the spec's words (C4): the weighted mean of the present
normalized scores under a weight assignment `w` — the weighted sum over the
total weight, and `0` when no scores are present or the total weight is
zero. -/
def weighted_mean (scores : List (String × ℚ)) (w : String → ℚ) : ℚ :=
  let total := (scores.map (fun p => w p.1)).sum
  if scores = [] ∨ total = 0 then 0
  else (scores.map (fun p => w p.1 * p.2)).sum / total

theorem odLookup_map_constVal {α β : Type} (m : List (String × α)) (c : β) (k : String) :
    odLookup (m.map (fun p => (p.1, c))) k = (odLookup m k).map (fun _ => c) := by
  induction m with
  | nil => rfl
  | cons p t ih =>
    obtain ⟨a, w⟩ := p
    by_cases h : a = k <;> simp [odLookup_cons, h, ih]

/-! ## The composite rating adapter (composite_rating_adapter.py) -/

/-- What one fetcher call yields, as the merge loop observes it: a returned
`Optional[Rating]`, or a raised exception (`err`). -/
inductive FetchOutcome where
  | ok (r : Option Rating)
  | err
  deriving DecidableEq

/-- The four local score variables of `CompositeRatingAdapter.fetch_rating`. -/
structure FieldAcc where
  epic : Option ℚ
  metacritic : Option ℚ
  opencritic : Option ℚ
  steam : Option ℚ
  deriving DecidableEq

/-- One iteration of the fetcher loop: an exception is caught, logged and
skipped (`except ... continue`); a `None` rating contributes nothing
(`if rating:`); each named field is taken only when still unset
(`if epic_score is None and rating.epic is not None`) — first-writer-wins. -/
def mergeStep (acc : FieldAcc) : FetchOutcome → FieldAcc
  | FetchOutcome.err => acc
  | FetchOutcome.ok none => acc
  | FetchOutcome.ok (some r) =>
    { epic := acc.epic.orElse (fun _ => r.epic),
      metacritic := acc.metacritic.orElse (fun _ => r.metacritic),
      opencritic := acc.opencritic.orElse (fun _ => r.opencritic),
      steam := acc.steam.orElse (fun _ => r.steam) }

/-- `CompositeRatingAdapter.fetch_rating`: run the fetchers in order through
`mergeStep`; if all four named fields stayed `None`, return `None`;
otherwise return a `Rating` of the four merged fields (and no extension
sources). -/
def fetch_rating (fetchers : List FetchOutcome) : Option Rating :=
  let acc := fetchers.foldl mergeStep
    { epic := none, metacritic := none, opencritic := none, steam := none }
  if acc.epic = none ∧ acc.metacritic = none ∧ acc.opencritic = none ∧ acc.steam = none
  then none
  else some { epic := acc.epic, metacritic := acc.metacritic,
              opencritic := acc.opencritic, steam := acc.steam,
              additional_sources := [] }

/-- The ratings of the fetchers that returned one, in order (raised
exceptions and `None` results skipped). -/
def okRatings (fetchers : List FetchOutcome) : List Rating :=
  fetchers.filterMap (fun o => match o with
    | FetchOutcome.ok (some r) => some r
    | _ => none)

theorem orElse_assoc {α : Type} (x y z : Option α) :
    ((x.orElse fun _ => y).orElse fun _ => z) = x.orElse fun _ => (y.orElse fun _ => z) := by
  cases x <;> rfl

theorem findSome?_cons_orElse {α β : Type} (f : α → Option β) (a : α) (l : List α) :
    List.findSome? f (a :: l) = (f a).orElse (fun _ => List.findSome? f l) := by
  cases h : f a <;> simp [List.findSome?_cons, h]

/-- Each field of the fold is the accumulator's value, else the first
non-absent value that a successful fetcher supplied for that field. -/
theorem foldl_mergeStep_field (fa : FieldAcc → Option ℚ) (f : Rating → Option ℚ)
    (hstep : ∀ acc r, fa (mergeStep acc (FetchOutcome.ok (some r)))
      = (fa acc).orElse (fun _ => f r)) (fetchers : List FetchOutcome) :
    ∀ acc : FieldAcc,
      fa (fetchers.foldl mergeStep acc)
        = (fa acc).orElse (fun _ => (okRatings fetchers).findSome? f) := by
  induction fetchers with
  | nil =>
    intro acc
    cases h : fa acc <;> simp [okRatings, h]
  | cons o t ih =>
    intro acc
    cases o with
    | err =>
      rw [List.foldl_cons]
      show fa (t.foldl mergeStep acc) = _
      rw [ih acc]
      rfl
    | ok ro =>
      cases ro with
      | none =>
        rw [List.foldl_cons]
        show fa (t.foldl mergeStep acc) = _
        rw [ih acc]
        rfl
      | some r =>
        rw [List.foldl_cons, ih _, hstep acc r, orElse_assoc]
        show _ = (fa acc).orElse fun _ => List.findSome? f (r :: okRatings t)
        rw [findSome?_cons_orElse]

/-- `fetch_rating`, in closed form: absent iff every named field has no first
writer, else the `Rating` of the four first-written fields and no extension
sources. -/
theorem fetch_rating_eq (fetchers : List FetchOutcome) :
    fetch_rating fetchers
      = (if ((okRatings fetchers).findSome? Rating.epic = none
            ∧ (okRatings fetchers).findSome? Rating.metacritic = none
            ∧ (okRatings fetchers).findSome? Rating.opencritic = none
            ∧ (okRatings fetchers).findSome? Rating.steam = none)
         then none
         else some { epic := (okRatings fetchers).findSome? Rating.epic,
                     metacritic := (okRatings fetchers).findSome? Rating.metacritic,
                     opencritic := (okRatings fetchers).findSome? Rating.opencritic,
                     steam := (okRatings fetchers).findSome? Rating.steam,
                     additional_sources := [] }) := by
  have he := foldl_mergeStep_field FieldAcc.epic Rating.epic (fun acc r => rfl) fetchers
    { epic := none, metacritic := none, opencritic := none, steam := none }
  have hm := foldl_mergeStep_field FieldAcc.metacritic Rating.metacritic (fun acc r => rfl)
    fetchers { epic := none, metacritic := none, opencritic := none, steam := none }
  have ho := foldl_mergeStep_field FieldAcc.opencritic Rating.opencritic (fun acc r => rfl)
    fetchers { epic := none, metacritic := none, opencritic := none, steam := none }
  have hs := foldl_mergeStep_field FieldAcc.steam Rating.steam (fun acc r => rfl) fetchers
    { epic := none, metacritic := none, opencritic := none, steam := none }
  simp only [show ∀ y : Option ℚ, ((none : Option ℚ).orElse fun _ => y) = y from fun y => rfl]
    at he hm ho hs
  unfold fetch_rating
  simp only [he, hm, ho, hs]


/-! ## Claim theorems for the rating model -/

theorem weighted_mean_congr (scores : List (String × ℚ)) (w w' : String → ℚ)
    (h : ∀ p ∈ scores, w p.1 = w' p.1) :
    weighted_mean scores w = weighted_mean scores w' := by
  have ht : (scores.map (fun p => w p.1)).sum = (scores.map (fun p => w' p.1)).sum :=
    congrArg List.sum (List.map_congr_left (fun p hp => h p hp))
  have hn : (scores.map (fun p => w p.1 * p.2)).sum
      = (scores.map (fun p => w' p.1 * p.2)).sum :=
    congrArg List.sum (List.map_congr_left (fun p hp => by rw [h p hp]))
  unfold weighted_mean
  simp only [ht, hn]

theorem aggregate_score_some (r : Rating) (ws : List (String × ℚ)) :
    aggregate_score r (some ws)
      = weighted_mean (get_all_scores_normalized r) (fun k => (odLookup ws k).getD 0) := by
  by_cases h1 : get_all_scores_normalized r = []
  · simp [aggregate_score, weighted_mean, h1]
  · have h1' : (get_all_scores_normalized r).isEmpty = false := List.isEmpty_eq_false.mpr h1
    by_cases h2 : ((get_all_scores_normalized r).map
        (fun p => (odLookup ws p.1).getD 0)).sum = 0
    · simp [aggregate_score, weighted_mean, h1, h1', h2]
    · have hnum : ((get_all_scores_normalized r).map
          (fun p => p.2 * (odLookup ws p.1).getD 0)).sum
          = ((get_all_scores_normalized r).map
            (fun p => (odLookup ws p.1).getD 0 * p.2)).sum :=
        congrArg List.sum (List.map_congr_left (fun p _ => mul_comm _ _))
      simp [aggregate_score, weighted_mean, h1, h1', h2, hnum]

/-- The rating used against C4: metacritic 100, steam 50, both already on the
0-100 scale. -/
def c4Rating : Rating := { metacritic := some 100, steam := some 50 }

/-- **C4** (counterexample): with the supplied mapping `{metacritic: 1}`,
the code gives the present-but-unweighted source `steam` weight `0.0` — the
result is `100.0`, the metacritic score alone.  Under the claim's reading,
where a present source missing from the supplied mapping defaults to the
equal contribution `1.0`, the weighted mean would be `75.0`.  The two
disagree, so a missing weight is not an equal contribution. -/
theorem aggregate_missing_weight_cex :
    aggregate_score c4Rating (some [("metacritic", 1)]) = 100
    ∧ weighted_mean (get_all_scores_normalized c4Rating)
        (fun k => (odLookup [("metacritic", (1 : ℚ))] k).getD 1) = 75
    ∧ (100 : ℚ) ≠ 75 := by
  have hnorm : get_all_scores_normalized c4Rating = [("metacritic", 100), ("steam", 50)] := rfl
  have hne : ("metacritic" : String) ≠ "steam" := by decide
  refine ⟨?_, ?_, by norm_num⟩
  · unfold aggregate_score
    rw [hnorm]
    norm_num [odLookup_cons, hne]
  · unfold weighted_mean
    rw [hnorm]
    norm_num [odLookup_cons, hne]
    decide

/-- **C4** (amended): `AggregateScore(weights)` is the weighted mean of the
normalized present scores — `0.0` when no scores are present or the total
weight is `0`, and otherwise the weighted sum over the total weight — where
with no weights mapping supplied every present source has weight `1.0`, and
a present source missing from a supplied weights mapping has weight `0.0`
(it contributes nothing). -/
theorem aggregate_score_weighted_mean (r : Rating) (weights : Option (List (String × ℚ))) :
    aggregate_score r weights
      = weighted_mean (get_all_scores_normalized r)
          (fun k => match weights with
            | none => (1 : ℚ)
            | some ws => (odLookup ws k).getD 0) := by
  cases weights with
  | some ws => exact aggregate_score_some r ws
  | none =>
    rw [show aggregate_score r none
        = aggregate_score r (some ((get_all_scores_normalized r).map (fun p => (p.1, (1 : ℚ)))))
      from rfl, aggregate_score_some]
    refine weighted_mean_congr _ _ _ (fun p hp => ?_)
    rw [odLookup_map_constVal]
    cases hl : odLookup (get_all_scores_normalized r) p.1 with
    | none => exact absurd hl (odLookup_isSome_of_mem hp)
    | some v => rfl

/-- **C5** (confirmed): a raising fetcher is skipped without affecting the
merge; the merged result is absent iff no fetcher supplied any of the four
named fields; and when a `Rating` is produced, each named field is the first
non-absent value supplied for it by a successful fetcher, in order (later
suppliers ignored), with no extension sources. -/
theorem composite_first_writer_wins (fetchers l1 l2 : List FetchOutcome) :
    fetch_rating (l1 ++ FetchOutcome.err :: l2) = fetch_rating (l1 ++ l2)
    ∧ (fetch_rating fetchers = none ↔
        ((okRatings fetchers).findSome? Rating.epic = none
          ∧ (okRatings fetchers).findSome? Rating.metacritic = none
          ∧ (okRatings fetchers).findSome? Rating.opencritic = none
          ∧ (okRatings fetchers).findSome? Rating.steam = none))
    ∧ (∀ r : Rating, fetch_rating fetchers = some r →
        r.epic = (okRatings fetchers).findSome? Rating.epic
        ∧ r.metacritic = (okRatings fetchers).findSome? Rating.metacritic
        ∧ r.opencritic = (okRatings fetchers).findSome? Rating.opencritic
        ∧ r.steam = (okRatings fetchers).findSome? Rating.steam
        ∧ r.additional_sources = []) := by
  refine ⟨?_, ?_, ?_⟩
  · have hfold : (l1 ++ FetchOutcome.err :: l2).foldl mergeStep
        { epic := none, metacritic := none, opencritic := none, steam := none }
        = (l1 ++ l2).foldl mergeStep
        { epic := none, metacritic := none, opencritic := none, steam := none } := by
      rw [List.foldl_append, List.foldl_append, List.foldl_cons]
      rfl
    unfold fetch_rating
    simp only [hfold]
  · rw [fetch_rating_eq]
    by_cases h : ((okRatings fetchers).findSome? Rating.epic = none
        ∧ (okRatings fetchers).findSome? Rating.metacritic = none
        ∧ (okRatings fetchers).findSome? Rating.opencritic = none
        ∧ (okRatings fetchers).findSome? Rating.steam = none)
    · simp [h]
    · simp [h]
  · intro r hr
    rw [fetch_rating_eq] at hr
    split at hr
    · exact absurd hr (by simp)
    · injection hr with h'
      subst h'
      exact ⟨rfl, rfl, rfl, rfl, rfl⟩

/-- **C10** (confirmed): the merged `Rating` never carries extension scores
(only the four named fields are taken from fetcher results), and if every
successful fetcher's rating has all four named fields absent — e.g. it holds
only extension scores — the merged result is absent even though fetchers
returned non-absent ratings. -/
theorem composite_no_extension_scores (fetchers : List FetchOutcome) :
    (∀ r : Rating, fetch_rating fetchers = some r → r.additional_sources = [])
    ∧ ((∀ r ∈ okRatings fetchers,
          r.epic = none ∧ r.metacritic = none ∧ r.opencritic = none ∧ r.steam = none) →
        fetch_rating fetchers = none) := by
  constructor
  · intro r hr
    rw [fetch_rating_eq] at hr
    split at hr
    · exact absurd hr (by simp)
    · injection hr with h'
      subst h'
      rfl
  · intro hall
    rw [fetch_rating_eq, if_pos]
    refine ⟨?_, ?_, ?_, ?_⟩ <;>
      exact List.findSome?_eq_none_iff.mpr (fun x hx => by
        rcases hall x hx with ⟨h1, h2, h3, h4⟩
        first
          | exact h1
          | exact h2
          | exact h3
          | exact h4)


/-! ## The durable snapshot store (json_file_repo.py) -/

/-- The byte store as `_write_to_file` touches it: the contents of the
target path and of the sibling `.tmp` path (`none` = that file does not
exist). -/
structure FS where
  target : Option String
  temp : Option String
  deriving DecidableEq

structure WriteResult where
  raised : Bool
  fs : FS
  deriving DecidableEq

/-- `JsonFileRepository._write_to_file`, over the write phase (the `try`
block): write the serialized document `doc` to the temporary path — when the
write fails the temp file is left in an arbitrary partial state
`partialTemp` —, then rename the temp file over the target in one atomic
step (POSIX rename: on failure neither path changes).  The `except` clause
deletes the temporary artifact if it exists and re-raises, which `raised`
records. -/
def write_to_file (fs : FS) (doc : String) (writeFails renameFails : Bool)
    (partialTemp : Option String) : WriteResult :=
  if writeFails then
    -- temp_path.write_text(...) raised, leaving the temp in state partialTemp
    let fsFail : FS := { target := fs.target, temp := partialTemp }
    -- except: if temp_path.exists(): temp_path.unlink()  -- then raise
    { raised := true, fs := { target := fsFail.target, temp := none } }
  else
    -- temp_path.write_text(...) wrote the document to the temp path
    let fsTmp : FS := { target := fs.target, temp := some doc }
    if renameFails then
      -- temp_path.rename(...) raised; same cleanup, then raise
      { raised := true, fs := { target := fsTmp.target, temp := none } }
    else
      -- temp_path.rename(self.output_path): the temp becomes the target
      { raised := false, fs := { target := some doc, temp := none } }

/-- **C6** (confirmed): `AtomicWrite` raises exactly when a primitive write
step fails (the failure is propagated to the caller), and on any failure
before the atomic replace the temporary artifact has been deleted and the
previously persisted target is byte-for-byte unchanged. -/
theorem atomic_write_failure (fs : FS) (doc : String) (writeFails renameFails : Bool)
    (partialTemp : Option String) :
    ((write_to_file fs doc writeFails renameFails partialTemp).raised
        = (writeFails || renameFails))
    ∧ ((write_to_file fs doc writeFails renameFails partialTemp).raised = true →
        (write_to_file fs doc writeFails renameFails partialTemp).fs.temp = none
        ∧ (write_to_file fs doc writeFails renameFails partialTemp).fs.target
            = fs.target) := by
  cases writeFails <;> cases renameFails <;> simp [write_to_file]

/-- Structured values as `json.loads` produces them. -/
inductive JVal where
  | jnull
  | jbool (b : Bool)
  | jnum (q : ℚ)
  | jstr (s : String)
  | jarr (elems : List JVal)
  | jobj (fields : List (String × JVal))

/-- What `_load_existing_data` observes of the persisted bytes. -/
inductive LoadBytes where
  /-- `self.output_path.exists()` is false. -/
  | missing
  /-- `read_text` raises an `IOError` (caught by the `except` clause). -/
  | unreadable
  /-- the bytes are not valid UTF-8 text: `read_text(encoding="utf-8")`
  raises `UnicodeDecodeError`, which is neither `json.JSONDecodeError` nor
  `IOError`, so the `except (json.JSONDecodeError, IOError)` clause does
  *not* catch it. -/
  | undecodable
  /-- `json.loads` raises `JSONDecodeError` (caught). -/
  | notJson
  /-- `json.loads` returned the value `v`. -/
  | parsed (v : JVal)

/-- One key-normalization step of `_load_existing_data`:
`if key not in data or not isinstance(data[key], list): data[key] = []`. -/
def fix_key (fields : List (String × JVal)) (key : String) : List (String × JVal) :=
  match odLookup fields key with
  | some (JVal.jarr _) => fields
  | _ => odInsert fields key (JVal.jarr [])

/-- `JsonFileRepository._load_existing_data`: empty dict for a missing file,
a caught read error or a caught JSON parse error, and for a parsed value
that is not an object; for an object, normalize the `"past"` and
`"currentFree"` keys; an undecodable file propagates the uncaught
`UnicodeDecodeError` (`Except.error`). -/
def load_existing_data : LoadBytes → Except Unit (List (String × JVal))
  | LoadBytes.missing => Except.ok []
  | LoadBytes.unreadable => Except.ok []
  | LoadBytes.undecodable => Except.error ()
  | LoadBytes.notJson => Except.ok []
  | LoadBytes.parsed v =>
    match v with
    | JVal.jobj fields => Except.ok (fix_key (fix_key fields "past") "currentFree")
    | _ => Except.ok []

/-- The fields the loader returns (empty when it raises). -/
def loadedFields (i : LoadBytes) : List (String × JVal) :=
  match load_existing_data i with
  | Except.ok l => l
  | Except.error _ => []

/-- The elements of a JSON array value, `[]` for anything else. -/
def asList : Option JVal → List JVal
  | some (JVal.jarr l) => l
  | _ => []

theorem fix_key_lookup (fields : List (String × JVal)) (key : String) :
    (odLookup (fix_key fields key) key = some (JVal.jarr (asList (odLookup fields key))))
    ∧ (∀ k, k ≠ key → odLookup (fix_key fields key) k = odLookup fields k) := by
  unfold fix_key
  cases hp : odLookup fields key with
  | none =>
    refine ⟨?_, fun k hk => by rw [odLookup_odInsert, if_neg hk]⟩
    rw [odLookup_odInsert, if_pos rfl]
    rfl
  | some v =>
    cases v <;>
      first
        | exact ⟨by rw [hp]; rfl, fun k hk => rfl⟩
        | exact ⟨by rw [odLookup_odInsert, if_pos rfl]; rfl,
            fun k hk => by rw [odLookup_odInsert, if_neg hk]⟩

/-- **C7** (counterexample): persisted bytes that are not valid UTF-8 text
make `read_text(encoding="utf-8")` raise `UnicodeDecodeError`, which the
`except (json.JSONDecodeError, IOError)` clause does not catch — the
failure propagates to the caller instead of yielding an empty document. -/
theorem load_undecodable_cex :
    load_existing_data LoadBytes.undecodable = Except.error () := rfl

/-- **C7** (amended): for every persisted byte content that decodes as text,
`Load` never fails the caller — a missing file, an unreadable file, invalid
structured data, or a parsed value that is not an object yields an empty
document; for an object, a missing or non-list `past` or `currentFree` key
is independently reset to an empty list (a list-shaped one is kept as-is)
while every other key is preserved; only bytes that are not valid text
propagate the (uncaught) decoding failure. -/
theorem load_defensive (v : JVal) (fields : List (String × JVal)) :
    (load_existing_data LoadBytes.missing = Except.ok []
      ∧ load_existing_data LoadBytes.unreadable = Except.ok []
      ∧ load_existing_data LoadBytes.notJson = Except.ok [])
    ∧ ((∀ fl, v ≠ JVal.jobj fl) → load_existing_data (LoadBytes.parsed v) = Except.ok [])
    ∧ (load_existing_data (LoadBytes.parsed (JVal.jobj fields))
        = Except.ok (loadedFields (LoadBytes.parsed (JVal.jobj fields))))
    ∧ (odLookup (loadedFields (LoadBytes.parsed (JVal.jobj fields))) "past"
        = some (JVal.jarr (asList (odLookup fields "past"))))
    ∧ (odLookup (loadedFields (LoadBytes.parsed (JVal.jobj fields))) "currentFree"
        = some (JVal.jarr (asList (odLookup fields "currentFree"))))
    ∧ (∀ k : String, k ≠ "past" → k ≠ "currentFree" →
        odLookup (loadedFields (LoadBytes.parsed (JVal.jobj fields))) k
          = odLookup fields k) := by
  have hload : loadedFields (LoadBytes.parsed (JVal.jobj fields))
      = fix_key (fix_key fields "past") "currentFree" := rfl
  refine ⟨⟨rfl, rfl, rfl⟩, ?_, rfl, ?_, ?_, ?_⟩
  · intro hne
    cases v with
    | jobj fl => exact absurd rfl (hne fl)
    | jnull => rfl
    | jbool b => rfl
    | jnum q => rfl
    | jstr s => rfl
    | jarr l => rfl
  · rw [hload, (fix_key_lookup (fix_key fields "past") "currentFree").2 "past" (by decide)]
    exact (fix_key_lookup fields "past").1
  · rw [hload, (fix_key_lookup (fix_key fields "past") "currentFree").1,
      (fix_key_lookup fields "past").2 "currentFree" (by decide)]
  · intro k hk1 hk2
    rw [hload, (fix_key_lookup (fix_key fields "past") "currentFree").2 k hk2,
      (fix_key_lookup fields "past").2 k hk1]

end EpicFree
